import Mathlib

namespace FileSplitter

/-- The bytes of `data` starting at index `i` begin with `needle`
(Python `data[i:i+len(needle)] == needle`). -/
def matchesAt (data needle : List Nat) (i : Nat) : Bool :=
  decide ((data.drop i).take needle.length = needle)

/-- Python `bytes.find(needle, pos)` as used at main.py line 61: the least
index `i ≥ pos` at which `needle` occurs in `data`, `none` when the search
fails (Python returns `-1` and the caller breaks). -/
def findFrom (data needle : List Nat) (pos : Nat) : Option Nat :=
  (List.range (data.length + 1)).find? (fun i => decide (pos ≤ i) && matchesAt data needle i)

/-- The inner scan of `optimized_split` (main.py lines 57-76): walk the
window left to right, remember the last occurrence whose global offset is
at most `target`, stop at the first occurrence strictly past `target`.
`fuel` bounds the iteration count; the caller passes `window.length + 1`,
which suffices for a non-empty header because `pos` advances by at least
`header.length` per round. -/
def scanLoop (window header : List Nat) (sStart target : Nat) :
    Nat → Nat → Option Nat → Option Nat
  | 0, _, last => last
  | fuel + 1, pos, last =>
    if pos < window.length then
      match findFrom window header pos with
      | none => last
      | some i =>
        if sStart + i ≤ target then
          scanLoop window header sStart target fuel (i + header.length) (some (sStart + i))
        else last
    else last

/-- The scan of one search window, started at `pos = 0` with no candidate
(main.py lines 57-58). -/
def scanWindow (window header : List Nat) (sStart target : Nat) : Option Nat :=
  scanLoop window header sStart target (window.length + 1) 0 none

/-- The window indices the scan visits, in order: the greedy
non-overlapping occurrence sequence of `header` in `window` (each search
resumes `header.length` past the previous hit, main.py line 76), ignoring
the `target` cut-off. -/
def scanOccs (window header : List Nat) : Nat → Nat → List Nat
  | 0, _ => []
  | fuel + 1, pos =>
    if pos < window.length then
      match findFrom window header pos with
      | none => []
      | some i => i :: scanOccs window header fuel (i + header.length)
    else []

/-- `search_start` of one planning step (main.py line 49); Nat subtraction
models Python `max(0, ...)`. -/
def searchStart (header : List Nat) (target : Nat) : Nat :=
  target - header.length * 100

/-- `search_end` of one planning step (main.py line 50). -/
def searchEnd (file header : List Nat) (target : Nat) : Nat :=
  min file.length (target + header.length * 2)

/-- `search_data` of one planning step (main.py lines 53-54): the bytes of
the search window, read with `seek`/`read`. -/
def theWindow (file header : List Nat) (target : Nat) : List Nat :=
  (file.drop (searchStart header target)).take (searchEnd file header target - searchStart header target)

/-- One planning step's header search: scan the window of `target` for the
last occurrence at or before `target` (main.py lines 48-76). -/
def stepScan (file header : List Nat) (target : Nat) : Option Nat :=
  scanWindow (theWindow file header target) header (searchStart header target) target

/-- Step 1 of `optimized_split` (main.py lines 44-91): the `while` loop that
chooses the split points after position `cur`.  Returns either the offsets
chosen from `cur` on with the final `file_size` appended (line 91), or the
`next_target` of the step that raised `FrameHeaderNotFoundError` (line 84);
paired with the progress percentages published at line 89 (Python
`int(x / file_size * 100)` is modelled as exact floor division
`x * 100 / file_size`; the division is safe here since the loop guard
forces `file_size > 0`).  `fuel` bounds the iteration count; the caller
passes `file.length + 1`, which suffices because each successful step
strictly increases `cur` while keeping it below `file.length`. -/
def planLoop (file header : List Nat) (maxSize : Nat) :
    Nat → Nat → Except Nat (List Nat) × List Nat
  | 0, _ => (Except.error 0, [])
  | fuel + 1, cur =>
    if cur + maxSize < file.length then
      match stepScan file header (cur + maxSize) with
      | some lv =>
        if cur < lv then
          ((planLoop file header maxSize fuel lv).1.map (fun rest => lv :: rest),
            lv * 100 / file.length :: (planLoop file header maxSize fuel lv).2)
        else (Except.error (cur + maxSize), [])
      | none => (Except.error (cur + maxSize), [])
    else (Except.ok [file.length], [])

/-- The split plan `actual_splits` computed by step 1 of `optimized_split`:
`0` (line 39) followed by the chosen split points and the final `file_size`
(line 91), or the position carried by `FrameHeaderNotFoundError`. -/
def planSplits (file header : List Nat) (maxSize : Nat) : Except Nat (List Nat) :=
  (planLoop file header maxSize (file.length + 1) 0).1.map (fun rest => 0 :: rest)

/-- Chunked copy of one segment (main.py lines 109-116): starting at `pos`,
read `remaining` bytes in blocks of at most 100 MiB.  `fuel = remaining`
suffices since every round transfers at least one byte. -/
def copyChunks (file : List Nat) : Nat → Nat → Nat → List Nat
  | 0, _, _ => []
  | fuel + 1, pos, remaining =>
    if remaining > 0 then
      (file.drop pos).take (min remaining (100 * 1024 ^ 2)) ++
        copyChunks file fuel (pos + min remaining (100 * 1024 ^ 2))
          (remaining - min remaining (100 * 1024 ^ 2))
    else []

/-- The consecutive `(start, end)` pairs of a split plan, i.e. the segments
iterated by step 2 of `optimized_split` (main.py lines 95-97). -/
def segPairs : List Nat → List (Nat × Nat)
  | a :: b :: rest => (a, b) :: segPairs (b :: rest)
  | _ => []

/-- How one `optimized_split` call ends: normal return of the part count
(line 123), `FrameHeaderNotFoundError(position)` from the planner
(line 84), or the `ZeroDivisionError` raised by the copier's progress
computation on an empty file (line 121). -/
inductive SplitOutcome
  | ok (partCount : Nat)
  | headerNotFound (position : Nat)
  | divByZero
  deriving DecidableEq

/-- Observable behaviour of one `optimized_split` call: the byte contents
of the part files written (in part-number order), the progress values
published to the queue, the part numbers that triggered the oversize
warning (line 102), and the final outcome. -/
structure RunResult where
  parts : List (List Nat)
  prog : List Nat
  warnings : List Nat
  outcome : SplitOutcome
  deriving DecidableEq

/-- Step 2 of `optimized_split` (main.py lines 94-123): for each segment,
check the oversize warning, copy the byte range to the next part file, then
publish progress when a queue is present — which divides by the file size
and raises `ZeroDivisionError` for an empty file.  `partNum` is the 1-based
part counter; the normal outcome carries `part_num - 1`. -/
def copyLoop (file : List Nat) (maxSize : Nat) (hasQueue : Bool) :
    List (Nat × Nat) → Nat → RunResult
  | [], partNum => ⟨[], [], [], .ok (partNum - 1)⟩
  | (s, e) :: rest, partNum =>
    if hasQueue then
      if file.length = 0 then
        ⟨[copyChunks file (e - s) s (e - s)], [],
          if maxSize < e - s then [partNum] else [], .divByZero⟩
      else
        ⟨copyChunks file (e - s) s (e - s) ::
            (copyLoop file maxSize hasQueue rest (partNum + 1)).parts,
          e * 100 / file.length :: (copyLoop file maxSize hasQueue rest (partNum + 1)).prog,
          (if maxSize < e - s then [partNum] else []) ++
            (copyLoop file maxSize hasQueue rest (partNum + 1)).warnings,
          (copyLoop file maxSize hasQueue rest (partNum + 1)).outcome⟩
    else
      ⟨copyChunks file (e - s) s (e - s) ::
          (copyLoop file maxSize hasQueue rest (partNum + 1)).parts,
        (copyLoop file maxSize hasQueue rest (partNum + 1)).prog,
        (if maxSize < e - s then [partNum] else []) ++
          (copyLoop file maxSize hasQueue rest (partNum + 1)).warnings,
        (copyLoop file maxSize hasQueue rest (partNum + 1)).outcome⟩

/-- Shallow embedding of `optimized_split` (main.py lines 18-123) for a
file given as its byte list, a frame header given as raw bytes, and the
maximum part size already converted to bytes.  `hasQueue` records whether
a progress queue was supplied. -/
def optimized_split (file header : List Nat) (maxSize : Nat) (hasQueue : Bool) : RunResult :=
  match planLoop file header maxSize (file.length + 1) 0 with
  | (Except.error t, prog) => ⟨[], if hasQueue then prog else [], [], .headerNotFound t⟩
  | (Except.ok rest, prog) =>
    ⟨(copyLoop file maxSize hasQueue (segPairs (0 :: rest)) 1).parts,
      (if hasQueue then prog else []) ++ (copyLoop file maxSize hasQueue (segPairs (0 :: rest)) 1).prog,
      (copyLoop file maxSize hasQueue (segPairs (0 :: rest)) 1).warnings,
      (copyLoop file maxSize hasQueue (segPairs (0 :: rest)) 1).outcome⟩

/-- The sixteen characters accepted by the hex check at main.py line 132. -/
def hexChars : List Char := "0123456789abcdef".toList

/-- Numeric value of one lower-case hex digit. -/
def hexVal (c : Char) : Nat :=
  if c.isDigit then c.toNat - '0'.toNat else c.toNat - 'a'.toNat + 10

/-- `binascii.unhexlify` on an even-length clean hex string: consume the
digits two at a time. -/
def unhexBytes : List Char → List Nat
  | a :: b :: rest => (hexVal a * 16 + hexVal b) :: unhexBytes rest
  | _ => []

/-- The cleaned form of the hex input: spaces removed, lower-cased
(main.py line 130). -/
def cleanHex (s : List Char) : List Char :=
  (s.filter (· != ' ')).map Char.toLower

/-- Shallow embedding of `hex_to_bytes` (main.py lines 126-137): clean the
input, reject any character outside `0-9a-f`, then unhexlify — which fails
exactly on an odd number of digits (the `binascii.Error` is re-raised as a
`ValueError` by the `except` clause). -/
def hex_to_bytes (s : List Char) : Except String (List Nat) :=
  if (cleanHex s).all (fun c => hexChars.contains c) then
    if (cleanHex s).length % 2 = 0 then Except.ok (unhexBytes (cleanHex s))
    else Except.error "Odd-length string"
  else Except.error "non-hexadecimal digit"

/-- A small eleven-byte test input with the two-byte marker `[1, 2]` at
offsets 0, 3, 6 and 9, used to instantiate the theorems below. -/
def sampleFile : List Nat := [1, 2, 0, 1, 2, 0, 1, 2, 0, 1, 2]

theorem findFrom_some {data needle : List Nat} {pos i : Nat}
    (h : findFrom data needle pos = some i) :
    pos ≤ i ∧ matchesAt data needle i = true := by
  have h2 := List.find?_some h
  simp only [Bool.and_eq_true, decide_eq_true_eq] at h2
  exact h2

theorem findFrom_none {data needle : List Nat} (pos : Nat)
    (h : ∀ i, matchesAt data needle i = false) :
    findFrom data needle pos = none := by
  apply List.find?_eq_none.mpr
  intro i _
  simp [h i]

theorem matchesAt_eq {data needle : List Nat} {i : Nat} (h : matchesAt data needle i = true) :
    (data.drop i).take needle.length = needle := by
  simpa [matchesAt] using h

theorem matchesAt_window {file needle : List Nat} {s w i : Nat}
    (h : matchesAt ((file.drop s).take w) needle i = true) :
    matchesAt file needle (s + i) = true := by
  have h2 := matchesAt_eq h
  rw [List.drop_take, List.take_take, List.drop_drop] at h2
  rcases le_or_lt needle.length (w - i) with hle | hlt
  · rw [min_eq_left hle] at h2
    simp [matchesAt, h2]
  · exfalso
    have hlen := congrArg List.length h2
    simp only [List.length_take, List.length_drop] at hlen
    omega

theorem matchesAt_lt_length {data needle : List Nat} {i : Nat}
    (hne : 0 < needle.length) (h : matchesAt data needle i = true) : i < data.length := by
  have h2 := matchesAt_eq h
  have hlen := congrArg List.length h2
  simp only [List.length_take, List.length_drop] at hlen
  omega

theorem scanLoop_some {window header : List Nat} {sStart target : Nat} :
    ∀ (fuel pos : Nat) (last : Option Nat),
      (∀ g, last = some g → g ≤ target ∧ ∃ i, g = sStart + i ∧ matchesAt window header i = true) →
      ∀ g, scanLoop window header sStart target fuel pos last = some g →
        g ≤ target ∧ ∃ i, g = sStart + i ∧ matchesAt window header i = true := by
  intro fuel
  induction fuel with
  | zero => intro pos last hlast g hg; exact hlast g hg
  | succ n ih =>
    intro pos last hlast g hg
    rw [scanLoop] at hg
    by_cases hp : pos < window.length
    · rw [if_pos hp] at hg
      cases hfind : findFrom window header pos with
      | none => simp only [hfind] at hg; exact hlast g hg
      | some i =>
        simp only [hfind] at hg
        by_cases ht : sStart + i ≤ target
        · rw [if_pos ht] at hg
          refine ih _ _ ?_ g hg
          rintro g' hg'
          cases hg'
          exact ⟨ht, i, rfl, (findFrom_some hfind).2⟩
        · rw [if_neg ht] at hg
          exact hlast g hg
    · rw [if_neg hp] at hg
      exact hlast g hg

theorem scanWindow_some {window header : List Nat} {sStart target g : Nat}
    (h : scanWindow window header sStart target = some g) :
    g ≤ target ∧ ∃ i, g = sStart + i ∧ matchesAt window header i = true := by
  exact scanLoop_some _ _ none (by intro g hg; cases hg) g h


theorem stepScan_some {file header : List Nat} {target lv : Nat}
    (h : stepScan file header target = some lv) :
    lv ≤ target ∧ matchesAt file header lv = true := by
  obtain ⟨hle, i, rfl, hm⟩ := scanWindow_some h
  exact ⟨hle, matchesAt_window hm⟩

theorem planLoop_ok {file header : List Nat} {maxSize : Nat} :
    ∀ (fuel cur : Nat) (rest prog : List Nat),
      planLoop file header maxSize fuel cur = (Except.ok rest, prog) →
      cur ≤ file.length →
      rest.getLast? = some file.length ∧
      (∀ x ∈ rest, x ≤ file.length) ∧
      List.Chain (· ≤ ·) cur rest ∧
      (cur < file.length → List.Chain (· < ·) cur rest) ∧
      List.Chain (fun a b => b - a ≤ maxSize) cur rest ∧
      (∀ x ∈ rest.dropLast, matchesAt file header x = true) ∧
      prog = rest.dropLast.map (fun x => x * 100 / file.length) := by
  intro fuel
  induction fuel with
  | zero =>
    intro cur rest prog h hcur
    rw [planLoop] at h
    simp at h
  | succ n ih =>
    intro cur rest prog h hcur
    rw [planLoop] at h
    by_cases hguard : cur + maxSize < file.length
    · rw [if_pos hguard] at h
      cases hscan : stepScan file header (cur + maxSize) with
      | none => simp only [hscan] at h; simp at h
      | some lv =>
        simp only [hscan] at h
        by_cases hlv : cur < lv
        · rw [if_pos hlv] at h
          obtain ⟨hle, hmatch⟩ := stepScan_some hscan
          have hlt : lv < file.length := lt_of_le_of_lt hle hguard
          cases hrec : planLoop file header maxSize n lv with
          | mk res prog' =>
            rw [hrec] at h
            simp only [Prod.mk.injEq] at h
            obtain ⟨hres, rfl⟩ := h
            cases res with
            | error e => simp [Except.map] at hres
            | ok rest' =>
              simp only [Except.map, Except.ok.injEq] at hres
              subst hres
              obtain ⟨ihlast, ihmem, ihle, ihlt, ihsub, ihmarks, ihprog⟩ :=
                ih lv rest' prog' hrec (le_of_lt hlt)
              have hne : rest' ≠ [] := by
                intro hnil
                rw [hnil] at ihlast
                simp at ihlast
              cases rest' with
              | nil => exact absurd rfl hne
              | cons b t =>
                refine ⟨?_, ?_, ?_, ?_, ?_, ?_, ?_⟩
                · rw [List.getLast?_cons_cons]
                  exact ihlast
                · intro x hx
                  rcases List.mem_cons.mp hx with rfl | hx'
                  · exact le_of_lt hlt
                  · exact ihmem x hx'
                · rw [List.chain_cons]
                  exact ⟨le_of_lt hlv, ihle⟩
                · intro _
                  rw [List.chain_cons]
                  exact ⟨hlv, ihlt hlt⟩
                · rw [List.chain_cons]
                  exact ⟨by omega, ihsub⟩
                · intro x hx
                  rw [List.dropLast_cons₂] at hx
                  rcases List.mem_cons.mp hx with rfl | hx'
                  · exact hmatch
                  · exact ihmarks x hx'
                · rw [List.dropLast_cons₂, List.map_cons, ihprog]
        · rw [if_neg hlv] at h
          simp at h
    · rw [if_neg hguard] at h
      simp only [Prod.mk.injEq, Except.ok.injEq] at h
      obtain ⟨rfl, rfl⟩ := h
      refine ⟨by simp, ?_, ?_, ?_, ?_, by simp, by simp⟩
      · intro x hx
        simp at hx
        omega
      · rw [List.chain_cons]
        exact ⟨hcur, List.Chain.nil⟩
      · intro hclt
        rw [List.chain_cons]
        exact ⟨hclt, List.Chain.nil⟩
      · rw [List.chain_cons]
        exact ⟨by omega, List.Chain.nil⟩

theorem planSplits_spec {file header : List Nat} {maxSize : Nat} {splits : List Nat}
    (h : planSplits file header maxSize = Except.ok splits) :
    ∃ rest,
      splits = 0 :: rest ∧
      planLoop file header maxSize (file.length + 1) 0 =
        (Except.ok rest, rest.dropLast.map (fun x => x * 100 / file.length)) ∧
      rest.getLast? = some file.length ∧
      (∀ x ∈ rest, x ≤ file.length) ∧
      List.Chain (· ≤ ·) 0 rest ∧
      (0 < file.length → List.Chain (· < ·) 0 rest) ∧
      List.Chain (fun a b => b - a ≤ maxSize) 0 rest ∧
      (∀ x ∈ rest.dropLast, matchesAt file header x = true) := by
  unfold planSplits at h
  cases hp : planLoop file header maxSize (file.length + 1) 0 with
  | mk res prog =>
    rw [hp] at h
    cases res with
    | error e => simp [Except.map] at h
    | ok rest =>
      simp only [Except.map, Except.ok.injEq] at h
      obtain ⟨hlast, hmem, hle, hlt, hsub, hmarks, hprog⟩ :=
        planLoop_ok (file.length + 1) 0 rest prog hp (Nat.zero_le _)
      subst hprog
      exact ⟨rest, h.symm, rfl, hlast, hmem, hle, hlt, hsub, hmarks⟩

theorem copyChunks_eq {file : List Nat} :
    ∀ (fuel pos remaining : Nat), remaining ≤ fuel →
      copyChunks file fuel pos remaining = (file.drop pos).take remaining := by
  intro fuel
  induction fuel with
  | zero =>
    intro pos remaining hr
    have h0 : remaining = 0 := Nat.le_zero.mp hr
    subst h0
    rw [copyChunks]
    simp
  | succ n ih =>
    intro pos remaining hr
    rw [copyChunks]
    by_cases h0 : remaining > 0
    · rw [if_pos h0]
      have hK : 0 < 100 * 1024 ^ 2 := by norm_num
      have h1 : min remaining (100 * 1024 ^ 2) ≤ remaining := Nat.min_le_left _ _
      have h2 : 0 < min remaining (100 * 1024 ^ 2) := lt_min h0 hK
      rw [ih (pos + min remaining (100 * 1024 ^ 2)) (remaining - min remaining (100 * 1024 ^ 2))
        (by omega)]
      have hdrop : (file.drop pos).drop (min remaining (100 * 1024 ^ 2)) =
          file.drop (pos + min remaining (100 * 1024 ^ 2)) := by
        rw [List.drop_drop, Nat.add_comm]
      rw [← hdrop, ← List.take_add]
      congr 1
      omega
    · rw [if_neg h0]
      have h1 : remaining = 0 := by omega
      subst h1
      simp

theorem segPairs_snd : ∀ (a : Nat) (l : List Nat), (segPairs (a :: l)).map Prod.snd = l := by
  intro a l
  induction l generalizing a with
  | nil => rfl
  | cons b t ih => simp [segPairs, ih b]

theorem segPairs_rel {R : Nat → Nat → Prop} :
    ∀ (a : Nat) (l : List Nat), List.Chain R a l → ∀ p ∈ segPairs (a :: l), R p.1 p.2 := by
  intro a l
  induction l generalizing a with
  | nil => intro _ p hp; simp [segPairs] at hp
  | cons b t ih =>
    intro hch p hp
    rw [List.chain_cons] at hch
    rcases List.mem_cons.mp hp with rfl | hp'
    · exact hch.1
    · exact ih b hch.2 p hp'

theorem copyLoop_false {file : List Nat} {maxSize : Nat} :
    ∀ (pairs : List (Nat × Nat)) (partNum : Nat),
      (copyLoop file maxSize false pairs partNum).parts =
          pairs.map (fun p => copyChunks file (p.2 - p.1) p.1 (p.2 - p.1)) ∧
      (copyLoop file maxSize false pairs partNum).prog = [] ∧
      (copyLoop file maxSize false pairs partNum).outcome = .ok (partNum + pairs.length - 1) := by
  intro pairs
  induction pairs with
  | nil => intro partNum; simp [copyLoop]
  | cons p t ih =>
    intro partNum
    obtain ⟨ih1, ih2, ih3⟩ := ih (partNum + 1)
    cases p with
    | mk a b =>
      refine ⟨?_, ?_, ?_⟩
      · simp [copyLoop, ih1]
      · simp [copyLoop, ih2]
      · have harith : partNum + 1 + t.length - 1 = partNum + (t.length + 1) - 1 := by omega
        simp [copyLoop, ih3, harith]

theorem copyLoop_true {file : List Nat} {maxSize : Nat} (hfs : file.length ≠ 0) :
    ∀ (pairs : List (Nat × Nat)) (partNum : Nat),
      (copyLoop file maxSize true pairs partNum).parts =
          pairs.map (fun p => copyChunks file (p.2 - p.1) p.1 (p.2 - p.1)) ∧
      (copyLoop file maxSize true pairs partNum).prog =
          pairs.map (fun p => p.2 * 100 / file.length) ∧
      (copyLoop file maxSize true pairs partNum).outcome = .ok (partNum + pairs.length - 1) := by
  intro pairs
  induction pairs with
  | nil => intro partNum; simp [copyLoop]
  | cons p t ih =>
    intro partNum
    obtain ⟨ih1, ih2, ih3⟩ := ih (partNum + 1)
    cases p with
    | mk a b =>
      refine ⟨?_, ?_, ?_⟩
      · simp [copyLoop, hfs, ih1]
      · simp [copyLoop, hfs, ih2]
      · have harith : partNum + 1 + t.length - 1 = partNum + (t.length + 1) - 1 := by omega
        simp [copyLoop, hfs, ih3, harith]

theorem copyLoop_div {file : List Nat} {maxSize : Nat} (hfs : file.length = 0)
    (p : Nat × Nat) (pairs : List (Nat × Nat)) (partNum : Nat) :
    (copyLoop file maxSize true (p :: pairs) partNum).outcome = .divByZero := by
  cases p with
  | mk a b => simp [copyLoop, hfs]

theorem copyLoop_warnings {file : List Nat} {maxSize : Nat} {hasQueue : Bool} :
    ∀ (pairs : List (Nat × Nat)) (partNum : Nat),
      (∀ p ∈ pairs, p.2 - p.1 ≤ maxSize) →
      (copyLoop file maxSize hasQueue pairs partNum).warnings = [] := by
  intro pairs
  induction pairs with
  | nil => intro partNum _; simp [copyLoop]
  | cons p t ih =>
    intro partNum hb
    cases p with
    | mk a b =>
      have hab : ¬ maxSize < b - a := by
        have := hb (a, b) (List.mem_cons_self _ _)
        omega
      have ht := ih (partNum + 1) (fun q hq => hb q (List.mem_cons_of_mem _ hq))
      cases hasQueue with
      | false => simp [copyLoop, hab, ht]
      | true =>
        by_cases h0 : file.length = 0
        · simp [copyLoop, h0, hab]
        · simp [copyLoop, h0, hab, ht]

theorem copyLoop_run {file : List Nat} {maxSize : Nat} {q : Bool}
    (hq : q = false ∨ file.length ≠ 0) (pairs : List (Nat × Nat)) (partNum : Nat) :
    (copyLoop file maxSize q pairs partNum).parts =
      pairs.map (fun p => (file.drop p.1).take (p.2 - p.1)) ∧
    (copyLoop file maxSize q pairs partNum).outcome = .ok (partNum + pairs.length - 1) := by
  have hc : ∀ a b : Nat, copyChunks file (b - a) a (b - a) = (file.drop a).take (b - a) :=
    fun a b => copyChunks_eq _ _ _ le_rfl
  have hmapeq : (fun p : Nat × Nat => copyChunks file (p.2 - p.1) p.1 (p.2 - p.1)) =
      (fun p : Nat × Nat => (file.drop p.1).take (p.2 - p.1)) :=
    funext fun p => hc p.1 p.2
  rcases hq with rfl | hfs
  · obtain ⟨h1, _, h3⟩ := copyLoop_false pairs partNum
    rw [h1, hmapeq] at *
    exact ⟨rfl, h3⟩
  · cases q with
    | false =>
      obtain ⟨h1, _, h3⟩ := copyLoop_false pairs partNum
      rw [h1, hmapeq] at *
      exact ⟨rfl, h3⟩
    | true =>
      obtain ⟨h1, _, h3⟩ := copyLoop_true hfs pairs partNum
      rw [h1, hmapeq] at *
      exact ⟨rfl, h3⟩

theorem join_slices (file : List Nat) :
    ∀ (l : List Nat) (a : Nat), List.Chain (· ≤ ·) a l →
      (l.getLast? = some file.length ∨ (l = [] ∧ a = file.length)) →
      ((segPairs (a :: l)).map (fun p => (file.drop p.1).take (p.2 - p.1))).flatten = file.drop a := by
  intro l
  induction l with
  | nil =>
    intro a _ hlast
    rcases hlast with h | ⟨_, rfl⟩
    · simp at h
    · simp [segPairs, List.drop_length]
  | cons b t ih =>
    intro a hch hlast
    rw [List.chain_cons] at hch
    have hlast' : t.getLast? = some file.length ∨ (t = [] ∧ b = file.length) := by
      cases t with
      | nil =>
        right
        refine ⟨rfl, ?_⟩
        rcases hlast with h | ⟨h, _⟩
        · simpa using h
        · simp at h
      | cons c u =>
        left
        rcases hlast with h | ⟨h, _⟩
        · rw [List.getLast?_cons_cons] at h
          exact h
        · simp at h
    have hjoin := ih b hch.2 hlast'
    simp only [segPairs, List.map_cons, List.flatten_cons]
    rw [hjoin]
    rw [show file.drop b = file.drop (a + (b - a)) from by rw [Nat.add_sub_cancel' hch.1]]
    exact List.drop_take_append_drop file a (b - a)

theorem chain'_last_pair {R : Nat → Nat → Prop} :
    ∀ (l : List Nat), List.Chain' R l →
      ∀ a b, l.dropLast.getLast? = some a → l.getLast? = some b → R a b := by
  intro l
  induction l with
  | nil => intro _ a b ha _; simp at ha
  | cons x t ih =>
    intro hch a b ha hb
    cases t with
    | nil => simp at ha
    | cons y u =>
      rw [List.chain'_cons] at hch
      cases u with
      | nil =>
        simp at ha hb
        subst ha
        subst hb
        exact hch.1
      | cons z v =>
        apply ih hch.2 a b ?_ ?_
        · rw [List.dropLast_cons₂, List.dropLast_cons₂, List.getLast?_cons_cons] at ha
          rw [List.dropLast_cons₂]
          exact ha
        · rw [List.getLast?_cons_cons] at hb
          exact hb

theorem outcome_ok_cases {file header : List Nat} {maxSize n : Nat} {q : Bool} {rest : List Nat}
    (hp : planLoop file header maxSize (file.length + 1) 0 =
      (Except.ok rest, rest.dropLast.map (fun x => x * 100 / file.length)))
    (hne : rest ≠ [])
    (hok : (optimized_split file header maxSize q).outcome = SplitOutcome.ok n) :
    q = false ∨ file.length ≠ 0 := by
  by_cases hq : q = false
  · exact Or.inl hq
  · right
    intro h0
    have hq' : q = true := by cases q <;> simp_all
    subst hq'
    cases rest with
    | nil => exact hne rfl
    | cons b t =>
      have hdiv : (optimized_split file header maxSize true).outcome = .divByZero := by
        simp only [optimized_split, hp]
        exact copyLoop_div h0 (0, b) (segPairs (b :: t)) 1
      rw [hdiv] at hok
      cases hok

/-- C1: for every successful run of `optimized_split` on a valid input
(non-empty marker, max part size greater than the marker length), the
output part files are, in index order, byte-exact copies of their plan
segments' source ranges, and their concatenation reproduces the input file
byte for byte. -/
theorem C1_round_trip {file header : List Nat} {maxSize n : Nat} {q : Bool} {splits : List Nat}
    (hh : 0 < header.length) (hgt : header.length < maxSize)
    (hplan : planSplits file header maxSize = Except.ok splits)
    (hok : (optimized_split file header maxSize q).outcome = SplitOutcome.ok n) :
    (optimized_split file header maxSize q).parts =
      (segPairs splits).map (fun p => (file.drop p.1).take (p.2 - p.1)) ∧
    ((optimized_split file header maxSize q).parts).flatten = file := by
  obtain ⟨rest, rfl, hp, hlast, hmem, hle, hltc, hsub, hmarks⟩ := planSplits_spec hplan
  have hne : rest ≠ [] := by intro h; rw [h] at hlast; simp at hlast
  have hq : q = false ∨ file.length ≠ 0 := outcome_ok_cases hp hne hok
  obtain ⟨hparts, hout⟩ := copyLoop_run hq (segPairs (0 :: rest)) 1
  have hparts' : (optimized_split file header maxSize q).parts =
      (segPairs (0 :: rest)).map (fun p => (file.drop p.1).take (p.2 - p.1)) := by
    simp only [optimized_split, hp]
    exact hparts
  refine ⟨hparts', ?_⟩
  rw [hparts']
  rw [join_slices file rest 0 hle (Or.inl hlast)]
  exact List.drop_zero file

theorem C1_round_trip_witness :
    (optimized_split sampleFile [1, 2] 3 false).parts =
      (segPairs [0, 3, 6, 9, 11]).map (fun p => (sampleFile.drop p.1).take (p.2 - p.1)) ∧
    ((optimized_split sampleFile [1, 2] 3 false).parts).flatten = sampleFile :=
  @C1_round_trip sampleFile [1, 2] 3 4 false [0, 3, 6, 9, 11] (by decide) (by decide) rfl rfl

/-- C2 counterexample: on the empty (but valid) input file the planner
succeeds with the plan `[0, 0]`, which is not strictly increasing — the
claim's monotonicity fails for `file_size = 0`. -/
theorem C2_cex_empty_file :
    planSplits [] [85, 170] 5 = Except.ok [0, 0] ∧ ¬ List.Chain' (· < ·) ([0, 0] : List Nat) := by
  constructor
  · rfl
  · simp [List.chain'_cons]

/-- C2 amended: for every valid input with `0 < file_size` on which the
planner succeeds, the plan is a strictly increasing offset sequence with
first element `0` and last element `file_size`, so the segment ranges
exactly cover `[0, file_size)`. -/
theorem C2_plan_monotone {file header : List Nat} {maxSize : Nat} {splits : List Nat}
    (hh : 0 < header.length) (hfs : 0 < file.length)
    (hplan : planSplits file header maxSize = Except.ok splits) :
    splits.head? = some 0 ∧ splits.getLast? = some file.length ∧
    List.Chain' (· < ·) splits := by
  obtain ⟨rest, rfl, hp, hlast, hmem, hle, hltc, hsub, hmarks⟩ := planSplits_spec hplan
  have hne : rest ≠ [] := by intro h; rw [h] at hlast; simp at hlast
  refine ⟨rfl, ?_, ?_⟩
  · cases rest with
    | nil => exact absurd rfl hne
    | cons b t =>
      rw [List.getLast?_cons_cons]
      exact hlast
  · exact hltc hfs

theorem C2_plan_monotone_witness :
    ([0, 3, 6, 9, 11] : List Nat).head? = some 0 ∧
    ([0, 3, 6, 9, 11] : List Nat).getLast? = some sampleFile.length ∧
    List.Chain' (· < ·) ([0, 3, 6, 9, 11] : List Nat) :=
  @C2_plan_monotone sampleFile [1, 2] 3 [0, 3, 6, 9, 11] (by decide) (by decide) rfl

/-- C3: every interior offset of a successful plan (all offsets except the
leading `0` and the final `file_size`) starts an exact occurrence of the
marker bytes in the source file. -/
theorem C3_boundary_alignment {file header : List Nat} {maxSize : Nat} {splits : List Nat}
    (hh : 0 < header.length)
    (hplan : planSplits file header maxSize = Except.ok splits) :
    ∀ o ∈ splits.tail.dropLast, (file.drop o).take header.length = header := by
  obtain ⟨rest, rfl, hp, hlast, hmem, hle, hltc, hsub, hmarks⟩ := planSplits_spec hplan
  intro o ho
  exact matchesAt_eq (hmarks o ho)

theorem C3_boundary_alignment_witness :
    (sampleFile.drop 3).take ([1, 2] : List Nat).length = [1, 2] ∧
    (sampleFile.drop 6).take ([1, 2] : List Nat).length = [1, 2] ∧
    (sampleFile.drop 9).take ([1, 2] : List Nat).length = [1, 2] :=
  ⟨@C3_boundary_alignment sampleFile [1, 2] 3 [0, 3, 6, 9, 11] (by decide) rfl 3 (by decide),
    @C3_boundary_alignment sampleFile [1, 2] 3 [0, 3, 6, 9, 11] (by decide) rfl 6 (by decide),
    @C3_boundary_alignment sampleFile [1, 2] 3 [0, 3, 6, 9, 11] (by decide) rfl 9 (by decide)⟩

/-- C4: every non-final segment of a successful plan has length at most
`max_part_size`. -/
theorem C4_size_bound {file header : List Nat} {maxSize : Nat} {splits : List Nat}
    (hh : 0 < header.length)
    (hplan : planSplits file header maxSize = Except.ok splits) :
    ∀ p ∈ (segPairs splits).dropLast, p.2 - p.1 ≤ maxSize := by
  obtain ⟨rest, rfl, hp, hlast, hmem, hle, hltc, hsub, hmarks⟩ := planSplits_spec hplan
  intro p hpmem
  exact segPairs_rel 0 rest hsub p ((List.dropLast_sublist _).subset hpmem)

theorem C4_size_bound_witness :
    ((0, 3) : Nat × Nat).2 - (0, 3).1 ≤ 3 ∧
    ((3, 6) : Nat × Nat).2 - (3, 6).1 ≤ 3 ∧
    ((6, 9) : Nat × Nat).2 - (6, 9).1 ≤ 3 :=
  ⟨@C4_size_bound sampleFile [1, 2] 3 [0, 3, 6, 9, 11] (by decide) rfl (0, 3) (by decide),
    @C4_size_bound sampleFile [1, 2] 3 [0, 3, 6, 9, 11] (by decide) rfl (3, 6) (by decide),
    @C4_size_bound sampleFile [1, 2] 3 [0, 3, 6, 9, 11] (by decide) rfl (6, 9) (by decide)⟩

/-- C5 counterexample (negation of the claim's existential): no successful
run on a valid input produces a final segment longer than `max_part_size` —
the loop guard `current_position + max_size < file_size` caps the final
segment, so the claimed oversize case is unreachable. -/
theorem C5_cex_no_oversize :
    ¬ ∃ (file header : List Nat) (maxSize : Nat) (splits : List Nat) (a b : Nat),
        0 < header.length ∧ header.length < maxSize ∧
        planSplits file header maxSize = Except.ok splits ∧
        splits.dropLast.getLast? = some a ∧ splits.getLast? = some b ∧
        maxSize < b - a := by
  rintro ⟨file, header, maxSize, splits, a, b, hh, hgt, hplan, ha, hb, hover⟩
  obtain ⟨rest, rfl, hp, hlast, hmem, hle, hltc, hsub, hmarks⟩ := planSplits_spec hplan
  have hchain : List.Chain' (fun a b => b - a ≤ maxSize) (0 :: rest) := hsub
  have := chain'_last_pair _ hchain a b ha hb
  omega

/-- C5 amended: in a successful run no segment at all — final segment
included — exceeds `max_part_size`, and consequently the oversize warning
is never emitted; the warning branch is dead code on successful runs. -/
theorem C5_oversize_unreachable {file header : List Nat} {maxSize : Nat} {q : Bool} {splits : List Nat}
    (hh : 0 < header.length)
    (hplan : planSplits file header maxSize = Except.ok splits) :
    List.Chain' (fun a b => b - a ≤ maxSize) splits ∧
    (optimized_split file header maxSize q).warnings = [] := by
  obtain ⟨rest, rfl, hp, hlast, hmem, hle, hltc, hsub, hmarks⟩ := planSplits_spec hplan
  refine ⟨hsub, ?_⟩
  simp only [optimized_split, hp]
  exact copyLoop_warnings _ 1 (segPairs_rel 0 rest hsub)

theorem C5_oversize_unreachable_witness :
    List.Chain' (fun a b => b - a ≤ 3) ([0, 3, 6, 9, 11] : List Nat) ∧
    (optimized_split sampleFile [1, 2] 3 true).warnings = [] :=
  @C5_oversize_unreachable sampleFile [1, 2] 3 true [0, 3, 6, 9, 11] (by decide) rfl

theorem getLast?_cons_or (a : Nat) (l : List Nat) : (a :: l).getLast? = l.getLast?.or (some a) := by
  cases l with
  | nil => simp
  | cons b t =>
    rw [List.getLast?_cons_cons]
    cases h : (b :: t).getLast? with
    | none => simp at h
    | some x => rfl

theorem scanOccs_matches {window header : List Nat} :
    ∀ (fuel pos : Nat), ∀ i ∈ scanOccs window header fuel pos, matchesAt window header i = true := by
  intro fuel
  induction fuel with
  | zero => intro pos i hi; rw [scanOccs] at hi; simp at hi
  | succ n ih =>
    intro pos i hi
    rw [scanOccs] at hi
    by_cases hp : pos < window.length
    · rw [if_pos hp] at hi
      cases hfind : findFrom window header pos with
      | none => simp [hfind] at hi
      | some j =>
        simp only [hfind] at hi
        rcases List.mem_cons.mp hi with rfl | hi'
        · exact (findFrom_some hfind).2
        · exact ih _ i hi'
    · rw [if_neg hp] at hi
      simp at hi

theorem scanOccs_ge {window header : List Nat} :
    ∀ (fuel pos : Nat), ∀ i ∈ scanOccs window header fuel pos, pos ≤ i := by
  intro fuel
  induction fuel with
  | zero => intro pos i hi; rw [scanOccs] at hi; simp at hi
  | succ n ih =>
    intro pos i hi
    rw [scanOccs] at hi
    by_cases hp : pos < window.length
    · rw [if_pos hp] at hi
      cases hfind : findFrom window header pos with
      | none => simp [hfind] at hi
      | some j =>
        simp only [hfind] at hi
        have hj := (findFrom_some hfind).1
        rcases List.mem_cons.mp hi with rfl | hi'
        · exact hj
        · have := ih _ i hi'
          omega
    · rw [if_neg hp] at hi
      simp at hi

theorem scanOccs_chain {window header : List Nat} (hh : 0 < header.length) :
    ∀ (fuel pos : Nat), List.Chain' (· < ·) (scanOccs window header fuel pos) := by
  intro fuel
  induction fuel with
  | zero => intro pos; rw [scanOccs]; exact List.chain'_nil
  | succ n ih =>
    intro pos
    rw [scanOccs]
    by_cases hp : pos < window.length
    · rw [if_pos hp]
      cases hfind : findFrom window header pos with
      | none => simp
      | some j =>
        simp only
        apply List.Chain'.cons' (ih _)
        intro y hy
        have := scanOccs_ge n (j + header.length) y (List.mem_of_mem_head? hy)
        omega
    · rw [if_neg hp]
      exact List.chain'_nil

theorem scanLoop_occs {window header : List Nat} {sStart target : Nat} :
    ∀ (fuel pos : Nat) (last : Option Nat),
      scanLoop window header sStart target fuel pos last =
        ((((scanOccs window header fuel pos).map (fun i => sStart + i)).takeWhile
          (fun g => decide (g ≤ target))).getLast?).or last := by
  intro fuel
  induction fuel with
  | zero => intro pos last; rw [scanLoop, scanOccs]; simp
  | succ n ih =>
    intro pos last
    rw [scanLoop, scanOccs]
    by_cases hp : pos < window.length
    · rw [if_pos hp, if_pos hp]
      cases hfind : findFrom window header pos with
      | none => simp
      | some i =>
        simp only
        by_cases ht : sStart + i ≤ target
        · rw [if_pos ht]
          rw [ih (i + header.length) (some (sStart + i))]
          rw [List.map_cons, List.takeWhile_cons_of_pos (by simpa using ht)]
          rw [getLast?_cons_or, Option.or_assoc]
          congr 1
        · rw [if_neg ht]
          rw [List.map_cons, List.takeWhile_cons_of_neg (by simpa using ht)]
          simp
    · rw [if_neg hp, if_neg hp]
      simp

/-- C6 counterexample: with the self-overlapping marker `[1, 1]` in window
`[1, 1, 1]` and target `2`, the scan returns offset `0` although offset `1`
is also an occurrence and is closer to the target — the scan skips
overlapping occurrences, so the chosen split point is not the occurrence
with the greatest offset at or below the target. -/
theorem C6_cex_overlap :
    scanWindow [1, 1, 1] [1, 1] 0 2 = some 0 ∧
    matchesAt [1, 1, 1] [1, 1] 1 = true ∧
    (1 : Nat) ≤ 2 ∧ (0 : Nat) < 1 :=
  ⟨rfl, by decide, by decide, by decide⟩

/-- C6 amended: the scan visits exactly the greedy non-overlapping
occurrence sequence of the marker (each search resumes `marker_length`
past the previous hit) in increasing offset order, and the chosen split
point is the last of those occurrences at or below `target` — the scan
stops at the first visited occurrence strictly past `target`. -/
theorem C6_scan_greedy {window header : List Nat} {sStart target : Nat}
    (hh : 0 < header.length) :
    scanWindow window header sStart target =
      (((scanOccs window header (window.length + 1) 0).map (fun i => sStart + i)).takeWhile
        (fun g => decide (g ≤ target))).getLast? ∧
    (∀ i ∈ scanOccs window header (window.length + 1) 0, matchesAt window header i = true) ∧
    List.Chain' (· < ·) (scanOccs window header (window.length + 1) 0) := by
  refine ⟨?_, scanOccs_matches _ _, scanOccs_chain hh _ _⟩
  rw [scanWindow, scanLoop_occs]
  simp

theorem C6_scan_greedy_witness :
    scanWindow [1, 1, 1] [1, 1] 0 2 =
      (((scanOccs [1, 1, 1] [1, 1] 4 0).map (fun i => 0 + i)).takeWhile
        (fun g => decide (g ≤ 2))).getLast? ∧
    (∀ i ∈ scanOccs [1, 1, 1] [1, 1] 4 0, matchesAt [1, 1, 1] [1, 1] i = true) ∧
    List.Chain' (· < ·) (scanOccs [1, 1, 1] [1, 1] 4 0) :=
  @C6_scan_greedy [1, 1, 1] [1, 1] 0 2 (by decide)

theorem div_hundred_le {x fs : Nat} (hx : x ≤ fs) (hfs : 0 < fs) : x * 100 / fs ≤ 100 := by
  calc x * 100 / fs ≤ fs * 100 / fs := Nat.div_le_div_right (Nat.mul_le_mul_right _ hx)
    _ = 100 := Nat.mul_div_cancel_left _ hfs

theorem pairwise_map_div {l : List Nat} (fs : Nat) (h : List.Pairwise (· < ·) l) :
    List.Chain' (· ≤ ·) (l.map (fun x => x * 100 / fs)) := by
  apply List.Pairwise.chain'
  apply h.map
  intro a b hab
  exact Nat.div_le_div_right (Nat.mul_le_mul_right _ (le_of_lt hab))

/-- C7 counterexample: on a concrete run the published progress sequence is
`[27, 54, 81, 27, 54, 81, 100]` — the planner first walks the whole file,
then the copier republishes from the first segment, so the sequence drops
at the phase boundary and is not non-decreasing. -/
theorem C7_cex_progress_drop :
    (optimized_split sampleFile [1, 2] 3 true).prog = [27, 54, 81, 27, 54, 81, 100] ∧
    ¬ List.Chain' (· ≤ ·) ((optimized_split sampleFile [1, 2] 3 true).prog) := by
  refine ⟨by decide, ?_⟩
  rw [show (optimized_split sampleFile [1, 2] 3 true).prog = [27, 54, 81, 27, 54, 81, 100]
    from by decide]
  simp [List.chain'_cons]

/-- C7 amended: the progress sequence of a successful run is exactly the
planner-phase list (the values published by the planning loop, in order)
followed by the copier-phase list (the values published by the segment
copier, in order); each of these two phase lists is non-decreasing on its
own and every published value lies in `[0, 100]`, but the value may drop at
the phase boundary. -/
theorem C7_progress_phases {file header : List Nat} {maxSize n : Nat} {splits : List Nat}
    (hh : 0 < header.length)
    (hplan : planSplits file header maxSize = Except.ok splits)
    (hok : (optimized_split file header maxSize true).outcome = SplitOutcome.ok n) :
    (optimized_split file header maxSize true).prog =
      (planLoop file header maxSize (file.length + 1) 0).2 ++
      (copyLoop file maxSize true (segPairs splits) 1).prog ∧
    List.Chain' (· ≤ ·) (planLoop file header maxSize (file.length + 1) 0).2 ∧
    List.Chain' (· ≤ ·) (copyLoop file maxSize true (segPairs splits) 1).prog ∧
    ∀ v ∈ (optimized_split file header maxSize true).prog, v ≤ 100 := by
  obtain ⟨rest, rfl, hp, hlast, hmem, hle, hltc, hsub, hmarks⟩ := planSplits_spec hplan
  have hne : rest ≠ [] := by intro h; rw [h] at hlast; simp at hlast
  have hfs : file.length ≠ 0 := by
    intro h0
    cases rest with
    | nil => exact hne rfl
    | cons b t =>
      have hdiv : (optimized_split file header maxSize true).outcome = .divByZero := by
        simp only [optimized_split, hp]
        exact copyLoop_div h0 (0, b) (segPairs (b :: t)) 1
      rw [hdiv] at hok
      cases hok
  have hpos : 0 < file.length := Nat.pos_of_ne_zero hfs
  obtain ⟨hc1, hc2, hc3⟩ := @copyLoop_true file maxSize hfs (segPairs (0 :: rest)) 1
  have hpw : List.Pairwise (· < ·) rest :=
    (List.pairwise_cons.mp (List.chain_iff_pairwise.mp (hltc hpos))).2
  have hplanprog : (planLoop file header maxSize (file.length + 1) 0).2 =
      rest.dropLast.map (fun x => x * 100 / file.length) := by
    rw [hp]
  have hcopyprog : (copyLoop file maxSize true (segPairs (0 :: rest)) 1).prog =
      rest.map (fun x => x * 100 / file.length) := by
    rw [hc2]
    rw [show (fun p : Nat × Nat => p.2 * 100 / file.length) =
        ((fun x => x * 100 / file.length) ∘ Prod.snd) from rfl]
    rw [← List.map_map, segPairs_snd]
  have hprogeq : (optimized_split file header maxSize true).prog =
      (planLoop file header maxSize (file.length + 1) 0).2 ++
      (copyLoop file maxSize true (segPairs (0 :: rest)) 1).prog := by
    simp only [optimized_split, hp, if_true]
  refine ⟨hprogeq, ?_, ?_, ?_⟩
  · rw [hplanprog]
    exact pairwise_map_div _ (hpw.sublist (List.dropLast_sublist _))
  · rw [hcopyprog]
    exact pairwise_map_div _ hpw
  · intro v hv
    rw [hprogeq, hplanprog, hcopyprog] at hv
    rcases List.mem_append.mp hv with hv' | hv'
    · obtain ⟨x, hx, rfl⟩ := List.mem_map.mp hv'
      exact div_hundred_le (hmem x ((List.dropLast_sublist _).subset hx)) hpos
    · obtain ⟨x, hx, rfl⟩ := List.mem_map.mp hv'
      exact div_hundred_le (hmem x hx) hpos

theorem C7_progress_phases_witness :
    (optimized_split sampleFile [1, 2] 3 true).prog =
      (planLoop sampleFile [1, 2] 3 (sampleFile.length + 1) 0).2 ++
      (copyLoop sampleFile 3 true (segPairs [0, 3, 6, 9, 11]) 1).prog ∧
    List.Chain' (· ≤ ·) (planLoop sampleFile [1, 2] 3 (sampleFile.length + 1) 0).2 ∧
    List.Chain' (· ≤ ·) (copyLoop sampleFile 3 true (segPairs [0, 3, 6, 9, 11]) 1).prog ∧
    ∀ v ∈ (optimized_split sampleFile [1, 2] 3 true).prog, v ≤ 100 :=
  @C7_progress_phases sampleFile [1, 2] 3 4 [0, 3, 6, 9, 11] (by decide) rfl rfl

/-- C8 counterexample: the file `[0, 0, 0, 0]` contains no occurrence of
the marker `[1, 2]`, yet with `max_part_size = 5 > file_size` the split
succeeds and writes one part — no `FrameHeaderNotFoundError` is raised, so
the claim fails for marker-free files smaller than the part limit. -/
theorem C8_cex_small_file :
    optimized_split [0, 0, 0, 0] [1, 2] 5 false =
      ⟨[[0, 0, 0, 0]], [], [], SplitOutcome.ok 1⟩ ∧
    (List.range 4).all (fun i => !(matchesAt [0, 0, 0, 0] [1, 2] i)) = true :=
  ⟨by decide, by decide⟩

/-- C8 amended: for every input file with `max_part_size < file_size` that
contains no occurrence of the marker, the split fails on the very first
planning step with `FrameHeaderNotFoundError` at `near_offset =
max_part_size`, with no part written and no progress published. -/
theorem C8_marker_missing {file header : List Nat} {maxSize : Nat} {q : Bool}
    (hh : 0 < header.length) (hms : maxSize < file.length)
    (hocc : ∀ i < file.length, matchesAt file header i = false) :
    optimized_split file header maxSize q = ⟨[], [], [], .headerNotFound maxSize⟩ := by
  have hoccall : ∀ i, matchesAt file header i = false := by
    intro i
    by_cases hi : i < file.length
    · exact hocc i hi
    · cases h : matchesAt file header i
      · rfl
      · exact absurd (matchesAt_lt_length hh h) hi
  have hwin : ∀ (t i : Nat), matchesAt (theWindow file header t) header i = false := by
    intro t i
    cases h : matchesAt (theWindow file header t) header i
    · rfl
    · exfalso
      rw [theWindow] at h
      have h2 := matchesAt_window h
      rw [hoccall] at h2
      cases h2
  have hscan : ∀ t : Nat, stepScan file header t = none := by
    intro t
    rw [stepScan, scanWindow, scanLoop]
    simp only [findFrom_none 0 (hwin t)]
    split <;> rfl
  have hplan : planLoop file header maxSize (file.length + 1) 0 = (Except.error maxSize, []) := by
    rw [planLoop, if_pos (by omega : 0 + maxSize < file.length)]
    simp only [Nat.zero_add, hscan]
  simp only [optimized_split, hplan]
  cases q <;> rfl

theorem C8_marker_missing_witness :
    optimized_split [0, 0, 0, 0, 0] [1, 2] 3 true = ⟨[], [], [], .headerNotFound 3⟩ :=
  @C8_marker_missing [0, 0, 0, 0, 0] [1, 2] 3 true (by decide) (by decide) (by decide)

/-- C9 counterexample: an input consisting of one space cleans to the empty
digit string, so the resulting byte count is zero, yet `hex_to_bytes`
succeeds and returns the empty byte sequence instead of failing. -/
theorem C9_cex_empty_hex :
    hex_to_bytes [' '] = Except.ok [] ∧ (cleanHex [' ']).length = 0 :=
  ⟨rfl, rfl⟩

/-- C9 amended: `hex_to_bytes` fails if and only if the cleaned input
(spaces removed, lower-cased) contains a character outside `0-9a-f` or has
an odd number of digits; on success it returns the bytes encoded by the
digit pairs — a zero-byte result is not an error. -/
theorem C9_hex_parse (s : List Char) :
    ((∃ e, hex_to_bytes s = Except.error e) ↔
      (¬ ∀ c ∈ cleanHex s, c ∈ hexChars) ∨ (cleanHex s).length % 2 = 1) ∧
    (∀ bs, hex_to_bytes s = Except.ok bs → bs = unhexBytes (cleanHex s)) := by
  constructor
  · rw [hex_to_bytes]
    by_cases hall : (cleanHex s).all (fun c => hexChars.contains c)
    · rw [if_pos hall]
      by_cases hmod : (cleanHex s).length % 2 = 0
      · rw [if_pos hmod]
        constructor
        · rintro ⟨e, he⟩
          cases he
        · rintro (h | h)
          · exfalso
            apply h
            intro c hc
            have := List.all_eq_true.mp hall c hc
            simpa using this
          · omega
      · rw [if_neg hmod]
        constructor
        · intro _
          right
          omega
        · intro _
          exact ⟨_, rfl⟩
    · rw [if_neg hall]
      constructor
      · intro _
        left
        intro hfor
        apply hall
        rw [List.all_eq_true]
        intro c hc
        simpa using hfor c hc
      · intro _
        exact ⟨_, rfl⟩
  · intro bs hbs
    rw [hex_to_bytes] at hbs
    split at hbs
    · split at hbs
      · cases hbs
        rfl
      · cases hbs
    · cases hbs

theorem C9_hex_parse_witness :
    ∃ e, hex_to_bytes ['z', 'z'] = Except.error e :=
  (C9_hex_parse ['z', 'z']).1.mpr (Or.inl (by decide))

/-- C10: on an empty input file with a progress queue supplied,
`optimized_split` writes one empty part file and then hits the
`ZeroDivisionError` of the copier's progress computation instead of
returning a part count. -/
theorem C10_empty_file_div {header : List Nat} {maxSize : Nat} (hh : 0 < header.length) :
    optimized_split [] header maxSize true = ⟨[[]], [], [], SplitOutcome.divByZero⟩ := by
  have hplan : planLoop [] header maxSize (List.length ([] : List Nat) + 1) 0 =
      (Except.ok [0], []) := by
    rw [planLoop, if_neg (by simp)]
    rfl
  simp only [optimized_split, hplan]
  rfl

theorem C10_empty_file_div_witness :
    optimized_split [] [85, 170] (1024 ^ 3) true = ⟨[[]], [], [], SplitOutcome.divByZero⟩ :=
  @C10_empty_file_div [85, 170] (1024 ^ 3) (by decide)

end FileSplitter
